import Mathlib

/-!
# KarmaFeed backend core: a shallow embedding

This file embeds the algorithmic core of the KarmaFeed repository
(Gamified-Community-Feed) in Lean 4 and proves properties of it.

The embedded functions are translated from the backend code as it appears in
the repository (the service/query/leaderboard/serializer functions quoted in
the EXPLAINER and audit documents, which carry the authoritative listings of
`backend/feed/queries.py`, `backend/feed/services.py`,
`backend/feed/leaderboard.py` and `backend/feed/serializers.py`):

* `build_comment_tree` — the two-pass O(n) comment tree assembler from
  `queries.py`: a first pass builds a node per comment (its replies list
  empty), a second pass appends each comment either to the root list (no
  parent) or, when its `parent_id` is a key of the node mapping, to its
  parent's replies list; otherwise the comment is skipped.
  The Python version builds the forest through mutable aliased dictionaries;
  the embedding returns the same data: the ordered root id list and, per
  comment id, the ordered replies id list.  `preorder`/`forestPreorder` give
  the denotation of the assembled forest as its pre-order id sequence,
  computed with fuel (`l.length` suffices for acyclic inputs).
* `like_post` — the like coordinator from `services.py`: inside one atomic
  transaction it creates the Like row (the database unique constraint on
  (user, content_type, object_id) raises `IntegrityError` on a duplicate),
  appends a `KarmaEvent` of +5 to the post author unless the actor is the
  author, and increments the denormalized `like_count` with an atomic
  `F('like_count') + 1` update.  `IntegrityError` is caught and reported as
  `action = "already_exists"` with `karma_delta = 0`; any other exception
  propagates.  Transactional rollback is the storage collaborator's contract
  (spec section 2 assumes a relational store with transactions), embedded by
  returning the pre-transaction state on every error.  Transient storage
  failures of the writes that follow the Like insert are modelled by the
  `Faults` oracle, mirroring the audit's failure-injection test which raises
  mid-transaction.
* `CommentCreateSerializer_create` — the depth assignment from
  `serializers.py`: a created comment gets `depth = parent.depth + 1`, or 0
  when it has no parent; the parent is a validated foreign key, so creation
  with an absent parent id is rejected.
* `get_leaderboard` — the karma aggregation from `leaderboard.py`:
  filter `created_at >= now - hours`, group by recipient, sum `karma_delta`,
  `ORDER BY total_karma DESC`, truncate to `limit`.  SQL `GROUP BY` produces
  groups in no specified order and the `ORDER BY` clause contains no
  recipient key; the embedding fixes the deterministic denotation
  "groups in first-appearance order, then a stable descending sort on the
  total", which preserves exactly what the code orders on.

Timestamps are integers (the unit is irrelevant; the leaderboard scenario
uses hours).  Karma deltas are integers.
-/

namespace KarmaFeed

/-! ## Comment records and the tree assembler (`queries.py`) -/

/-- A comment row as fetched for tree assembly: its id, its nullable parent
comment id, and its denormalized `depth` field (set at creation by
`CommentCreateSerializer_create`; ignored by the assembler). -/
structure CEntry where
  id : Nat
  parent : Option Nat
  depth : Nat
  deriving Repr, DecidableEq

/-- The ids of the supplied comments, in input order.  This is the key set of
the `nodes` dictionary built by the first pass of `build_comment_tree`. -/
def entryIds (l : List CEntry) : List Nat :=
  l.map (fun c => c.id)

/-- The second pass of `build_comment_tree`: iterate the input once; a comment
with `parent_id is None` is appended to the root list, a comment whose
`parent_id` is a key of `nodes` is appended to its parent's replies list, and
any other comment is skipped (`elif comment.parent_id in nodes`). -/
def attachLoop (ids : List Nat) :
    List CEntry → List Nat → (Nat → List Nat) → List Nat × (Nat → List Nat)
  | [], roots, replies => (roots, replies)
  | c :: rest, roots, replies =>
    match c.parent with
    | none => attachLoop ids rest (roots ++ [c.id]) replies
    | some p =>
      if p ∈ ids then
        attachLoop ids rest roots
          (fun q => if q = p then replies q ++ [c.id] else replies q)
      else
        attachLoop ids rest roots replies

/-- `build_comment_tree(flat_comments)` from `queries.py`: returns the ordered
list of root ids together with the per-id ordered replies list.  The Python
function returns the root node dictionaries whose `replies` entries alias the
same mapping; this pair is that structure with sharing made explicit. -/
def build_comment_tree (l : List CEntry) : List Nat × (Nat → List Nat) :=
  attachLoop (entryIds l) l [] (fun _ => [])

/-- Pre-order serialization of one assembled node, with fuel: the node itself,
then its replies recursively in order.  Fuel `l.length` is enough for every
acyclic input. -/
def preorder (replies : Nat → List Nat) : Nat → Nat → List Nat
  | 0, _ => []
  | fuel + 1, i => i :: (replies i).flatMap (preorder replies fuel)

/-- Pre-order serialization of the whole assembled forest returned by
`build_comment_tree`. -/
def forestPreorder (l : List CEntry) : List Nat :=
  (build_comment_tree l).1.flatMap (preorder (build_comment_tree l).2 l.length)

/-- The root ids the assembler produces: the comments whose parent is null, in
input order. -/
def rootIds (l : List CEntry) : List Nat :=
  (l.filter (fun c => c.parent.isNone)).map (fun c => c.id)

/-- The replies the assembler attaches under id `q`: the comments whose parent
id equals `q` and is a key of the node mapping, in input order. -/
def childIds (l : List CEntry) (q : Nat) : List Nat :=
  ((l.filter (fun c => c.parent == some q && decide (q ∈ entryIds l))).map
    (fun c => c.id))

/-- Entry `j` is recorded as a child of `p`: some input comment has id `j` and
parent id `p`. -/
def IsChildOf (l : List CEntry) (j p : Nat) : Prop :=
  ∃ c ∈ l, c.id = j ∧ c.parent = some p

/-- Entry `j` is a root: some input comment has id `j` and a null parent. -/
def IsRootId (l : List CEntry) (j : Nat) : Prop :=
  ∃ c ∈ l, c.id = j ∧ c.parent = none

/-- `AncD l d i j`: following parent references upward from `j` for `d` steps
reaches `i` (so `i` is the `d`-th ancestor of `j`; `d = 0` means `i = j`). -/
def AncD (l : List CEntry) : Nat → Nat → Nat → Prop
  | 0, i, j => i = j
  | d + 1, i, j => ∃ p, IsChildOf l j p ∧ AncD l d i p

/-- Every declared parent reference points at a supplied comment.  (The
quantification runs over `c.parent.toList` so the predicate is decidable on
concrete inputs.) -/
def parentsPresent (l : List CEntry) : Prop :=
  ∀ c ∈ l, ∀ p ∈ c.parent.toList, p ∈ entryIds l

/-- `rk` witnesses that the parent references are acyclic: every child has
strictly larger rank than its parent.  A finite parent graph is cycle-free
exactly when such a rank function exists. -/
def rankOk (l : List CEntry) (rk : Nat → Nat) : Prop :=
  ∀ c ∈ l, ∀ p ∈ c.parent.toList, rk p < rk c.id

instance (l : List CEntry) : Decidable (parentsPresent l) := by
  unfold parentsPresent
  infer_instance

instance (l : List CEntry) (rk : Nat → Nat) : Decidable (rankOk l rk) := by
  unfold rankOk
  infer_instance

/-! ## Comment creation (`serializers.py`) -/

/-- `CommentCreateSerializer.create` from `serializers.py`: a reply gets
`depth = parent.depth + 1`, a top-level comment gets `depth = 0`.  `parent` is
a validated foreign key, so a create whose parent id is absent from the store
is rejected (the store is returned unchanged). -/
def CommentCreateSerializer_create (store : List CEntry) (newId : Nat)
    (parentId : Option Nat) : List CEntry :=
  match parentId with
  | none => store ++ [⟨newId, none, 0⟩]
  | some p =>
    match store.find? (fun c => c.id == p) with
    | some parent => store ++ [⟨newId, some p, parent.depth + 1⟩]
    | none => store

/-- A comment store reached by a sequence of creations starting from the empty
store; each operation carries the new id and the optional parent id. -/
def createAll (ops : List (Nat × Option Nat)) : List CEntry :=
  ops.foldl (fun s op => CommentCreateSerializer_create s op.1 op.2) []

/-- The denormalized-depth invariant of the data model: a root has depth 0 and
a reply has its parent's depth plus one. -/
def DepthOk (store : List CEntry) : Prop :=
  ∀ c ∈ store,
    (c.parent = none → c.depth = 0) ∧
    (∀ p, c.parent = some p → ∃ q ∈ store, q.id = p ∧ c.depth = q.depth + 1)

/-! ## The like coordinator (`services.py`) -/

/-- Error taxonomy of the storage layer as seen by `like_post`:
`integrity` is the unique-constraint violation raised by a duplicate Like
insert, `notFound` a missing target post, `transient` any other storage
failure inside the transaction. -/
inductive TxError where
  | integrity
  | notFound
  | transient
  deriving Repr, DecidableEq

/-- A post row: id, author id, and the denormalized `like_count`. -/
structure PostRow where
  id : Nat
  author : Nat
  like_count : Nat
  deriving Repr, DecidableEq

/-- The tagged target kind of a Like (Django `ContentType`). -/
inductive TargetKind where
  | post
  | comment
  deriving Repr, DecidableEq

/-- A Like row: actor, target kind, target id.  The storage layer enforces at
most one row per (user, kind, target) triple. -/
structure LikeRow where
  user : Nat
  kind : TargetKind
  target : Nat
  deriving Repr, DecidableEq

/-- An append-only karma event row. -/
structure KarmaEventRow where
  recipient : Nat
  actor : Nat
  karma_delta : Int
  created_at : Int
  deriving Repr, DecidableEq

/-- The observable durable state: posts, likes, karma events. -/
structure DB where
  posts : List PostRow
  likes : List LikeRow
  karma : List KarmaEventRow
  deriving Repr, DecidableEq

/-- `KARMA_POST_LIKE` from the backend constants: a post like grants +5. -/
def KARMA_POST_LIKE : Int := 5

/-- `LikeResult` returned by `like_post` (fields as serialized in the audited
HTTP response: `success`, `action`, `karma_delta`). -/
structure LikeResult where
  success : Bool
  action : String
  karma_delta : Int
  deriving Repr, DecidableEq

/-- Fault oracle for transient storage failures of the writes that follow the
Like insert inside the transaction (the audit's failure-injection raises at
exactly these points).  The Like insert itself fails only through the unique
constraint, which is modelled separately as `TxError.integrity`. -/
structure Faults where
  failKarma : Bool
  failCount : Bool
  deriving Repr, DecidableEq

/-- The fault-free schedule. -/
def noFaults : Faults := ⟨false, false⟩

/-- Whether a Like row by `u` on post `pid` exists — the state the unique
constraint arbitrates when `Like.objects.create` runs. -/
def likeExists (db : DB) (u pid : Nat) : Bool :=
  db.likes.any (fun lk =>
    lk.user == u && lk.kind == TargetKind.post && lk.target == pid)

/-- `Post.objects.get(id=post_id)` — lookup of the target post. -/
def findPost (db : DB) (pid : Nat) : Option PostRow :=
  db.posts.find? (fun p => p.id == pid)

/-- `Post.objects.filter(id=post_id).update(like_count=F('like_count') + 1)`:
the atomic counter increment. -/
def bumpLikeCount (pid : Nat) (db : DB) : DB :=
  { db with
    posts := db.posts.map (fun p =>
      if p.id = pid then { p with like_count := p.like_count + 1 } else p) }

/-- The body of the `transaction.atomic()` block of `like_post`:
1. `Like.objects.create(...)` — raises `IntegrityError` on a duplicate;
2. `KarmaEvent.objects.create(recipient=post.author, actor=user,
   karma_delta=KARMA_POST_LIKE)` — only when `post.author_id != user.id`;
3. the atomic `like_count` increment.
Returns the committed state and the granted karma delta, or the error that
aborted the transaction. -/
def likePostTx (f : Faults) (u pid : Nat) (now : Int) (db : DB) :
    Except TxError (DB × Int) :=
  match findPost db pid with
  | none => Except.error TxError.notFound
  | some post =>
    if likeExists db u pid then
      Except.error TxError.integrity
    else
      let db1 : DB := { db with likes := db.likes ++ [⟨u, TargetKind.post, pid⟩] }
      if post.author ≠ u then
        if f.failKarma then
          Except.error TxError.transient
        else
          let db2 : DB :=
            { db1 with
              karma := db1.karma ++ [⟨post.author, u, KARMA_POST_LIKE, now⟩] }
          if f.failCount then
            Except.error TxError.transient
          else
            Except.ok (bumpLikeCount pid db2, KARMA_POST_LIKE)
      else
        if f.failCount then
          Except.error TxError.transient
        else
          Except.ok (bumpLikeCount pid db1, 0)

/-- `like_post(user, post_id)` from `services.py`.  The transaction body runs
under `transaction.atomic()`: on any error the store rolls back, so the
observable state is the pre-call state.  `IntegrityError` is caught and
reported as `action = "already_exists"` with `karma_delta = 0`; every other
error propagates to the caller. -/
def like_post (f : Faults) (u pid : Nat) (now : Int) (db : DB) :
    Except TxError LikeResult × DB :=
  match likePostTx f u pid now db with
  | Except.ok (db2, delta) => (Except.ok ⟨true, "created", delta⟩, db2)
  | Except.error TxError.integrity =>
    (Except.ok ⟨false, "already_exists", 0⟩, db)
  | Except.error e => (Except.error e, db)

/-- `n` successive fault-free calls of `like_post` by the same actor on the
same post, threading the state. -/
def likeN (f : Faults) (u pid : Nat) (now : Int) : Nat → DB → DB
  | 0, db => db
  | n + 1, db => likeN f u pid now n (like_post f u pid now db).2

/-! ## The karma leaderboard (`leaderboard.py`) -/

/-- The recipients of a list of karma events, in order of first appearance —
the groups of the SQL `GROUP BY recipient_id`. -/
def groupRecipients (evs : List KarmaEventRow) : List Nat :=
  evs.foldl (fun acc e => if e.recipient ∈ acc then acc else acc ++ [e.recipient]) []

/-- `SUM(karma_delta)` of the events of one recipient. -/
def totalFor (evs : List KarmaEventRow) (u : Nat) : Int :=
  ((evs.filter (fun e => e.recipient == u)).map (fun e => e.karma_delta)).sum

/-- One step of a stable descending sort on the total: the new row is placed
before the first row whose total is less than or equal to its own, so rows
with strictly greater totals stay ahead and, among equal totals, earlier rows
stay first. -/
def insertByTotal (a : Nat × Int) : List (Nat × Int) → List (Nat × Int)
  | [] => [a]
  | b :: rest =>
    if a.2 < b.2 then b :: insertByTotal a rest else a :: b :: rest

/-- Stable sort of the grouped totals, descending on the total — the
denotation of `ORDER BY total_karma DESC` with ties kept in group order. -/
def sortByTotalDesc : List (Nat × Int) → List (Nat × Int)
  | [] => []
  | a :: rest => insertByTotal a (sortByTotalDesc rest)

/-- `get_leaderboard(hours, limit)` from `leaderboard.py`:
`cutoff = now - timedelta(hours=hours)`, filter `created_at >= cutoff`, group
by recipient, annotate `Sum('karma_delta')`, `order_by('-total_karma')`, then
`[:limit]`.  The `ORDER BY` clause has no recipient key, so the embedding
sorts stably over the groups in first-appearance order. -/
def get_leaderboard (evs : List KarmaEventRow) (now hours : Int) (limit : Nat) :
    List (Nat × Int) :=
  let cutoff := now - hours
  let window := evs.filter (fun e => decide (cutoff ≤ e.created_at))
  let grouped := (groupRecipients window).map (fun u => (u, totalFor window u))
  (sortByTotalDesc grouped).take limit

/-- The spec's description of a recipient's window total, written from the
spec's words for comparison with `get_leaderboard`: the sum of the deltas of
the events whose timestamp lies within `[now - windowDuration, now]`. -/
def windowSumSpec (evs : List KarmaEventRow) (now hours : Int) (u : Nat) : Int :=
  ((evs.filter (fun e =>
      e.recipient == u && decide (now - hours ≤ e.created_at) &&
        decide (e.created_at ≤ now))).map (fun e => e.karma_delta)).sum

/-! ## Concrete inputs used by counterexamples and witnesses -/

/-- One comment whose declared parent id 99 is absent from the input. -/
def exOrphan : List CEntry := [⟨1, some 99, 0⟩]

/-- A two-comment thread: comment 2 replies to root comment 1. -/
def exThread : List CEntry := [⟨1, none, 0⟩, ⟨2, some 1, 1⟩]

/-- A store with post 1 by author 10, already liked by user 2. -/
def dbDup : DB := ⟨[⟨1, 10, 1⟩], [⟨2, TargetKind.post, 1⟩], []⟩

/-- A store with post 1 by author 10 and no likes. -/
def dbFresh : DB := ⟨[⟨1, 10, 0⟩], [], []⟩

/-- The spec's leaderboard scenario: three +5 events to recipient 7 at times
now, now - 23h and now - 25h (times in hours, `now = 0`). -/
def scenarioEvents : List KarmaEventRow :=
  [⟨7, 1, 5, 0⟩, ⟨7, 1, 5, -23⟩, ⟨7, 1, 5, -25⟩]

/-- Two +5 events to distinct recipients at the same time; recipient 7 occurs
first in the event log, recipient 2 second. -/
def exTie : List KarmaEventRow := [⟨7, 1, 5, 0⟩, ⟨2, 1, 5, 0⟩]

/-! ## Characterization of the attachment loop -/

theorem attachLoop_fst (ids : List Nat) (l : List CEntry) (roots : List Nat)
    (replies : Nat → List Nat) :
    (attachLoop ids l roots replies).1 =
      roots ++ (l.filter (fun c => c.parent.isNone)).map (fun c => c.id) := by
  induction l generalizing roots replies with
  | nil => simp [attachLoop]
  | cons c rest ih =>
    cases hp : c.parent with
    | none => simp [attachLoop, hp, ih]
    | some p =>
      by_cases hmem : p ∈ ids
      · simp [attachLoop, hp, hmem, ih]
      · simp [attachLoop, hp, hmem, ih]

theorem attachLoop_snd (ids : List Nat) (l : List CEntry) (roots : List Nat)
    (replies : Nat → List Nat) (q : Nat) :
    (attachLoop ids l roots replies).2 q =
      replies q ++
        (l.filter (fun c => c.parent == some q && decide (q ∈ ids))).map
          (fun c => c.id) := by
  induction l generalizing roots replies with
  | nil => simp [attachLoop]
  | cons c rest ih =>
    cases hp : c.parent with
    | none => simp [attachLoop, hp, ih]
    | some p =>
      by_cases hmem : p ∈ ids
      · by_cases hq : q = p
        · subst hq
          simp [attachLoop, hp, hmem, ih]
        · simp [attachLoop, hp, hmem, ih, Ne.symm hq, hq]
      · by_cases hq : q = p
        · subst hq
          simp [attachLoop, hp, hmem, ih]
        · simp [attachLoop, hp, hmem, ih, Ne.symm hq, hq]

theorem build_comment_tree_fst (l : List CEntry) :
    (build_comment_tree l).1 = rootIds l := by
  simp [build_comment_tree, rootIds, attachLoop_fst]

theorem build_comment_tree_snd (l : List CEntry) (q : Nat) :
    (build_comment_tree l).2 q = childIds l q := by
  simp [build_comment_tree, childIds, attachLoop_snd, entryIds]

theorem mem_rootIds {l : List CEntry} {x : Nat} :
    x ∈ rootIds l ↔ IsRootId l x := by
  simp only [rootIds, List.mem_map, List.mem_filter, IsRootId]
  constructor
  · rintro ⟨c, ⟨hc, hn⟩, rfl⟩
    exact ⟨c, hc, rfl, Option.isNone_iff_eq_none.mp hn⟩
  · rintro ⟨c, hc, rfl, hn⟩
    exact ⟨c, ⟨hc, by simp [hn]⟩, rfl⟩

theorem mem_childIds {l : List CEntry} {x q : Nat} :
    x ∈ childIds l q ↔ IsChildOf l x q ∧ q ∈ entryIds l := by
  simp only [childIds, List.mem_map, List.mem_filter, IsChildOf]
  constructor
  · rintro ⟨c, ⟨hc, hcond⟩, rfl⟩
    simp only [Bool.and_eq_true, beq_iff_eq, decide_eq_true_eq] at hcond
    exact ⟨⟨c, hc, rfl, hcond.1⟩, hcond.2⟩
  · rintro ⟨⟨c, hc, rfl, hpar⟩, hq⟩
    exact ⟨c, ⟨hc, by simp [hpar, hq]⟩, rfl⟩

theorem rootIds_sublist (l : List CEntry) : (rootIds l).Sublist (entryIds l) := by
  unfold rootIds entryIds
  exact (List.filter_sublist l).map (fun c => c.id)

theorem childIds_sublist (l : List CEntry) (q : Nat) :
    (childIds l q).Sublist (entryIds l) := by
  unfold childIds entryIds
  exact (List.filter_sublist l).map (fun c => c.id)

/-! ## Ancestor chains of a duplicate-free, parent-closed, acyclic input -/

theorem entry_unique {l : List CEntry} (hnodup : (entryIds l).Nodup)
    {c₁ c₂ : CEntry} (h₁ : c₁ ∈ l) (h₂ : c₂ ∈ l) (hid : c₁.id = c₂.id) :
    c₁ = c₂ :=
  List.inj_on_of_nodup_map hnodup h₁ h₂ hid

theorem parentsPresent_apply {l : List CEntry} (h : parentsPresent l)
    {c : CEntry} (hc : c ∈ l) {p : Nat} (hp : c.parent = some p) :
    p ∈ entryIds l := by
  have := h c hc p
  simp [hp] at this
  exact this

theorem rankOk_apply {l : List CEntry} {rk : Nat → Nat} (h : rankOk l rk)
    {c : CEntry} (hc : c ∈ l) {p : Nat} (hp : c.parent = some p) :
    rk p < rk c.id := by
  have := h c hc p
  simp [hp] at this
  exact this

theorem isChildOf_parent_unique {l : List CEntry}
    (hnodup : (entryIds l).Nodup) {j p₁ p₂ : Nat}
    (h₁ : IsChildOf l j p₁) (h₂ : IsChildOf l j p₂) : p₁ = p₂ := by
  obtain ⟨c₁, hc₁, hid₁, hp₁⟩ := h₁
  obtain ⟨c₂, hc₂, hid₂, hp₂⟩ := h₂
  have hEq : c₁ = c₂ := entry_unique hnodup hc₁ hc₂ (hid₁.trans hid₂.symm)
  subst hEq
  rw [hp₁] at hp₂
  exact Option.some_inj.mp hp₂

theorem not_isChildOf_of_isRootId {l : List CEntry}
    (hnodup : (entryIds l).Nodup) {j p : Nat}
    (hroot : IsRootId l j) (hchild : IsChildOf l j p) : False := by
  obtain ⟨c₁, hc₁, hid₁, hp₁⟩ := hroot
  obtain ⟨c₂, hc₂, hid₂, hp₂⟩ := hchild
  have hEq : c₁ = c₂ := entry_unique hnodup hc₁ hc₂ (hid₁.trans hid₂.symm)
  subst hEq
  rw [hp₁] at hp₂
  exact Option.noConfusion hp₂

theorem isChildOf_mem {l : List CEntry} {j p : Nat} (h : IsChildOf l j p) :
    j ∈ entryIds l := by
  obtain ⟨c, hc, hid, -⟩ := h
  exact hid ▸ List.mem_map_of_mem (fun c => c.id) hc

theorem isRootId_mem {l : List CEntry} {j : Nat} (h : IsRootId l j) :
    j ∈ entryIds l := by
  obtain ⟨c, hc, hid, -⟩ := h
  exact hid ▸ List.mem_map_of_mem (fun c => c.id) hc

theorem isChildOf_rank {l : List CEntry} {rk : Nat → Nat} (hrk : rankOk l rk)
    {j p : Nat} (h : IsChildOf l j p) : rk p < rk j := by
  obtain ⟨c, hc, hid, hp⟩ := h
  exact hid ▸ rankOk_apply hrk hc hp

theorem ancD_rank_le {l : List CEntry} {rk : Nat → Nat} (hrk : rankOk l rk) :
    ∀ {d i j : Nat}, AncD l d i j → rk i ≤ rk j := by
  intro d
  induction d with
  | zero => intro i j h; exact le_of_eq (congrArg rk h)
  | succ d ih =>
    intro i j h
    obtain ⟨p, hchild, hanc⟩ := h
    exact le_of_lt (lt_of_le_of_lt (ih hanc) (isChildOf_rank hrk hchild))

theorem ancD_rank_lt {l : List CEntry} {rk : Nat → Nat} (hrk : rankOk l rk)
    {d i j : Nat} (h : AncD l (d + 1) i j) : rk i < rk j := by
  obtain ⟨p, hchild, hanc⟩ := h
  exact lt_of_le_of_lt (ancD_rank_le hrk hanc) (isChildOf_rank hrk hchild)

theorem ancD_unique {l : List CEntry} (hnodup : (entryIds l).Nodup) :
    ∀ {d i₁ i₂ j : Nat}, AncD l d i₁ j → AncD l d i₂ j → i₁ = i₂ := by
  intro d
  induction d with
  | zero => intro i₁ i₂ j h₁ h₂; exact h₁.trans h₂.symm
  | succ d ih =>
    intro i₁ i₂ j h₁ h₂
    obtain ⟨p₁, hc₁, ha₁⟩ := h₁
    obtain ⟨p₂, hc₂, ha₂⟩ := h₂
    have : p₁ = p₂ := isChildOf_parent_unique hnodup hc₁ hc₂
    subst this
    exact ih ha₁ ha₂

theorem ancD_succ_iff (l : List CEntry) :
    ∀ (d i j : Nat), AncD l (d + 1) i j ↔ ∃ c, IsChildOf l c i ∧ AncD l d c j := by
  intro d
  induction d with
  | zero =>
    intro i j
    constructor
    · rintro ⟨p, hchild, hanc⟩
      exact ⟨j, (show i = p from hanc) ▸ hchild, rfl⟩
    · rintro ⟨c, hchild, hanc⟩
      exact ⟨i, (show c = j from hanc) ▸ hchild, rfl⟩
  | succ d ih =>
    intro i j
    constructor
    · rintro ⟨p, hchild, hanc⟩
      obtain ⟨c, hc, ha⟩ := (ih i p).mp hanc
      exact ⟨c, hc, p, hchild, ha⟩
    · rintro ⟨c, hc, p, hchild, ha⟩
      exact ⟨p, hchild, (ih i p).mpr ⟨c, hc, ha⟩⟩

theorem ancD_decompose {l : List CEntry} :
    ∀ (e : Nat) {d i j : Nat}, e ≤ d → AncD l d i j →
      ∃ m, AncD l e m j ∧ AncD l (d - e) i m := by
  intro e
  induction e with
  | zero => intro d i j _ h; exact ⟨j, rfl, h⟩
  | succ e ih =>
    intro d i j hle h
    cases d with
    | zero => omega
    | succ d =>
      obtain ⟨p, hchild, hanc⟩ := h
      obtain ⟨m, hm₁, hm₂⟩ := ih (Nat.succ_le_succ_iff.mp hle) hanc
      exact ⟨m, ⟨p, hchild, hm₁⟩, by simpa [Nat.succ_sub_succ] using hm₂⟩

theorem ancD_chain {l : List CEntry} {rk : Nat → Nat}
    (hpar : parentsPresent l) (hrk : rankOk l rk) :
    ∀ (d : Nat) {i j : Nat}, j ∈ entryIds l → AncD l d i j →
      ∃ C : List Nat, C.length = d + 1 ∧ C.Nodup ∧
        ∀ x ∈ C, x ∈ entryIds l ∧ ∃ e, e ≤ d ∧ AncD l e x j := by
  intro d
  induction d with
  | zero =>
    intro i j hj _
    refine ⟨[j], rfl, List.nodup_singleton j, ?_⟩
    intro x hx
    simp only [List.mem_singleton] at hx
    subst hx
    exact ⟨hj, 0, Nat.le_refl 0, rfl⟩
  | succ d ih =>
    intro i j hj h
    obtain ⟨p, hchild, hanc⟩ := h
    have hpmem : p ∈ entryIds l := by
      obtain ⟨c, hc, -, hp⟩ := hchild
      exact parentsPresent_apply hpar hc hp
    obtain ⟨C, hlen, hnd, hprop⟩ := ih hpmem hanc
    refine ⟨j :: C, by simp [hlen], ?_, ?_⟩
    · refine List.nodup_cons.mpr ⟨?_, hnd⟩
      intro hjC
      obtain ⟨-, e, -, hae⟩ := hprop j hjC
      have h₁ : rk j ≤ rk p := ancD_rank_le hrk hae
      have h₂ : rk p < rk j := isChildOf_rank hrk hchild
      omega
    · intro x hx
      rcases List.mem_cons.mp hx with rfl | hxC
      · exact ⟨hj, 0, Nat.zero_le _, rfl⟩
      · obtain ⟨hxl, e, he, hae⟩ := hprop x hxC
        exact ⟨hxl, e + 1, Nat.succ_le_succ he, p, hchild, hae⟩

theorem ancD_lt_length {l : List CEntry} {rk : Nat → Nat}
    (hpar : parentsPresent l) (hrk : rankOk l rk)
    {d i j : Nat} (hj : j ∈ entryIds l) (h : AncD l d i j) : d < l.length := by
  obtain ⟨C, hlen, hnd, hprop⟩ := ancD_chain hpar hrk d hj h
  have hcard : C.toFinset.card = C.length := List.toFinset_card_of_nodup hnd
  have hsub : C.toFinset ⊆ (entryIds l).toFinset := by
    intro x hx
    exact List.mem_toFinset.mpr (hprop x (List.mem_toFinset.mp hx)).1
  have h₁ : C.toFinset.card ≤ (entryIds l).toFinset.card := Finset.card_le_card hsub
  have h₂ : (entryIds l).toFinset.card ≤ (entryIds l).length :=
    List.toFinset_card_le (entryIds l)
  have h₃ : (entryIds l).length = l.length := List.length_map l (fun c => c.id)
  omega

theorem exists_root_ancestor {l : List CEntry} {rk : Nat → Nat}
    (hpar : parentsPresent l) (hrk : rankOk l rk) :
    ∀ (n j : Nat), rk j ≤ n → j ∈ entryIds l →
      ∃ r d, IsRootId l r ∧ AncD l d r j := by
  intro n
  induction n with
  | zero =>
    intro j hle hj
    obtain ⟨c, hc, hid⟩ := List.mem_map.mp hj
    cases hp : c.parent with
    | none => exact ⟨j, 0, ⟨c, hc, hid, hp⟩, rfl⟩
    | some p =>
      have hrank : rk p < rk j := hid ▸ rankOk_apply hrk hc hp
      omega
  | succ n ih =>
    intro j hle hj
    obtain ⟨c, hc, hid⟩ := List.mem_map.mp hj
    cases hp : c.parent with
    | none => exact ⟨j, 0, ⟨c, hc, hid, hp⟩, rfl⟩
    | some p =>
      have hrank : rk p < rk j := hid ▸ rankOk_apply hrk hc hp
      have hpmem : p ∈ entryIds l := parentsPresent_apply hpar hc hp
      obtain ⟨r, d, hroot, hanc⟩ := ih p (by omega) hpmem
      exact ⟨r, d + 1, hroot, p, ⟨c, hc, hid, hp⟩, hanc⟩

theorem root_ancestor_unique_le {l : List CEntry}
    (hnodup : (entryIds l).Nodup)
    {r₁ r₂ j d₁ d₂ : Nat} (hle : d₁ ≤ d₂)
    (hroot₁ : IsRootId l r₁)
    (h₁ : AncD l d₁ r₁ j) (h₂ : AncD l d₂ r₂ j) : r₁ = r₂ := by
  obtain ⟨m, hm₁, hm₂⟩ := ancD_decompose d₁ hle h₂
  have hmr : m = r₁ := ancD_unique hnodup hm₁ h₁
  subst hmr
  cases hk : d₂ - d₁ with
  | zero => rw [hk] at hm₂; exact hm₂.symm
  | succ k =>
    rw [hk] at hm₂
    obtain ⟨p, hchild, -⟩ := hm₂
    exact absurd hchild (fun hc => not_isChildOf_of_isRootId hnodup hroot₁ hc)

theorem root_ancestor_unique {l : List CEntry}
    (hnodup : (entryIds l).Nodup)
    {r₁ r₂ j d₁ d₂ : Nat}
    (hroot₁ : IsRootId l r₁) (hroot₂ : IsRootId l r₂)
    (h₁ : AncD l d₁ r₁ j) (h₂ : AncD l d₂ r₂ j) : r₁ = r₂ := by
  rcases Nat.le_total d₁ d₂ with hle | hle
  · exact root_ancestor_unique_le hnodup hle hroot₁ h₁ h₂
  · exact (root_ancestor_unique_le hnodup hle hroot₂ h₂ h₁).symm

theorem sibling_ancestor_unique_le {l : List CEntry}
    (hnodup : (entryIds l).Nodup) {rk : Nat → Nat} (hrk : rankOk l rk)
    {i j c₁ c₂ d₁ d₂ : Nat} (hle : d₂ ≤ d₁)
    (hc₁ : IsChildOf l c₁ i) (hc₂ : IsChildOf l c₂ i)
    (ha₁ : AncD l d₁ c₁ j) (ha₂ : AncD l d₂ c₂ j) : c₁ = c₂ := by
  obtain ⟨m, hm₁, hm₂⟩ := ancD_decompose d₂ hle ha₁
  have hmc : m = c₂ := ancD_unique hnodup hm₁ ha₂
  subst hmc
  cases hk : d₁ - d₂ with
  | zero => rw [hk] at hm₂; exact hm₂
  | succ k =>
    rw [hk] at hm₂
    obtain ⟨p, hchild, hanc⟩ := hm₂
    have hpi : p = i := isChildOf_parent_unique hnodup hchild hc₂
    rw [hpi] at hanc
    cases k with
    | zero =>
      have hci : c₁ = i := hanc
      subst hci
      have := isChildOf_rank hrk hc₁
      omega
    | succ k =>
      have h₁ : rk c₁ < rk i := ancD_rank_lt hrk hanc
      have h₂ : rk i < rk c₁ := isChildOf_rank hrk hc₁
      omega

theorem sibling_ancestor_unique {l : List CEntry}
    (hnodup : (entryIds l).Nodup) {rk : Nat → Nat} (hrk : rankOk l rk)
    {i j c₁ c₂ d₁ d₂ : Nat}
    (hc₁ : IsChildOf l c₁ i) (hc₂ : IsChildOf l c₂ i)
    (ha₁ : AncD l d₁ c₁ j) (ha₂ : AncD l d₂ c₂ j) : c₁ = c₂ := by
  rcases Nat.le_total d₂ d₁ with hle | hle
  · exact sibling_ancestor_unique_le hnodup hrk hle hc₁ hc₂ ha₁ ha₂
  · exact (sibling_ancestor_unique_le hnodup hrk hle hc₂ hc₁ ha₂ ha₁).symm

/-! ## Counting occurrences in the pre-order serialization -/

theorem count_flatMap_eq_zero {f : Nat → List Nat} {L : List Nat} {j : Nat}
    (h : ∀ c ∈ L, List.count j (f c) = 0) :
    List.count j (L.flatMap f) = 0 := by
  induction L with
  | nil => simp
  | cons a L ih =>
    simp only [List.flatMap_cons, List.count_append]
    rw [h a (List.mem_cons_self a L),
      ih (fun c hc => h c (List.mem_cons_of_mem a hc))]

theorem count_flatMap_eq_one {f : Nat → List Nat} {j c₀ : Nat} :
    ∀ {L : List Nat}, L.Nodup → c₀ ∈ L → List.count j (f c₀) = 1 →
      (∀ c ∈ L, c ≠ c₀ → List.count j (f c) = 0) →
      List.count j (L.flatMap f) = 1 := by
  intro L
  induction L with
  | nil => intro _ h; simp at h
  | cons a L ih =>
    intro hnd hmem hone hzero
    simp only [List.flatMap_cons, List.count_append]
    rcases List.mem_cons.mp hmem with rfl | hmem
    · rw [hone]
      have hz : ∀ c ∈ L, List.count j (f c) = 0 := by
        intro c hc
        refine hzero c (List.mem_cons_of_mem _ hc) ?_
        rintro rfl
        exact (List.nodup_cons.mp hnd).1 hc
      rw [count_flatMap_eq_zero hz]
    · have ha : List.count j (f a) = 0 := by
        refine hzero a (List.mem_cons_self a L) ?_
        rintro rfl
        exact (List.nodup_cons.mp hnd).1 hmem
      rw [ha, ih (List.nodup_cons.mp hnd).2 hmem hone
        (fun c hc hne => hzero c (List.mem_cons_of_mem a hc) hne)]

theorem preorder_count {l : List CEntry} {rk : Nat → Nat}
    (hnodup : (entryIds l).Nodup) (hrk : rankOk l rk) :
    ∀ (fuel i : Nat), i ∈ entryIds l → ∀ j : Nat,
      ((∃ d, d < fuel ∧ AncD l d i j) →
        List.count j (preorder (build_comment_tree l).2 fuel i) = 1) ∧
      ((∀ d, d < fuel → ¬ AncD l d i j) →
        List.count j (preorder (build_comment_tree l).2 fuel i) = 0) := by
  intro fuel
  induction fuel with
  | zero =>
    intro i hi j
    exact ⟨fun ⟨d, hd, _⟩ => absurd hd (Nat.not_lt_zero d),
      fun _ => by simp [preorder]⟩
  | succ fuel ih =>
    intro i hi j
    have hdesc : preorder (build_comment_tree l).2 (fuel + 1) i
        = i :: (childIds l i).flatMap (preorder (build_comment_tree l).2 fuel) := by
      rw [preorder, build_comment_tree_snd]
    constructor
    · rintro ⟨d, hd, hanc⟩
      cases d with
      | zero =>
        have hij : i = j := hanc
        subst hij
        rw [hdesc]
        have hz : List.count i
            ((childIds l i).flatMap (preorder (build_comment_tree l).2 fuel)) = 0 := by
          apply count_flatMap_eq_zero
          intro c hc
          refine (ih c ((childIds_sublist l i).subset hc) i).2 ?_
          intro e he hae
          have hchild : IsChildOf l c i := (mem_childIds.mp hc).1
          have h₁ : rk i < rk c := isChildOf_rank hrk hchild
          have h₂ : rk c ≤ rk i := ancD_rank_le hrk hae
          omega
        simp [List.count_cons, hz]
      | succ d =>
        obtain ⟨c, hchild, hanc2⟩ := (ancD_succ_iff l d i j).mp hanc
        have hij : i ≠ j := by
          rintro rfl
          have := ancD_rank_lt hrk hanc
          omega
        rw [hdesc]
        have hc_in : c ∈ childIds l i := mem_childIds.mpr ⟨hchild, hi⟩
        have hone : List.count j (preorder (build_comment_tree l).2 fuel c) = 1 :=
          (ih c ((childIds_sublist l i).subset hc_in) j).1 ⟨d, by omega, hanc2⟩
        have hzero : ∀ c₂ ∈ childIds l i, c₂ ≠ c →
            List.count j (preorder (build_comment_tree l).2 fuel c₂) = 0 := by
          intro c₂ hc₂ hne
          refine (ih c₂ ((childIds_sublist l i).subset hc₂) j).2 ?_
          intro e he hae
          exact hne
            (sibling_ancestor_unique hnodup hrk (mem_childIds.mp hc₂).1 hchild hae hanc2)
        have hnd : (childIds l i).Nodup :=
          List.Nodup.sublist (childIds_sublist l i) hnodup
        have hcnt := count_flatMap_eq_one hnd hc_in hone hzero
        simp [List.count_cons, hcnt, hij]
    · intro hnone
      rw [hdesc]
      have hij : i ≠ j := by
        rintro rfl
        exact hnone 0 (Nat.succ_pos fuel) rfl
      have hz : List.count j
          ((childIds l i).flatMap (preorder (build_comment_tree l).2 fuel)) = 0 := by
        apply count_flatMap_eq_zero
        intro c hc
        refine (ih c ((childIds_sublist l i).subset hc) j).2 ?_
        intro e he hae
        exact hnone (e + 1) (by omega)
          ((ancD_succ_iff l e i j).mpr ⟨c, (mem_childIds.mp hc).1, hae⟩)
      simp [List.count_cons, hz, hij]

theorem forestPreorder_perm {l : List CEntry} {rk : Nat → Nat}
    (hnodup : (entryIds l).Nodup) (hpar : parentsPresent l)
    (hrk : rankOk l rk) :
    (forestPreorder l).Perm (entryIds l) := by
  rw [List.perm_iff_count]
  intro j
  by_cases hj : j ∈ entryIds l
  · obtain ⟨r, d, hroot, hanc⟩ :=
      exists_root_ancestor hpar hrk (rk j) j (Nat.le_refl _) hj
    have hd : d < l.length := ancD_lt_length hpar hrk hj hanc
    have hrmem : r ∈ rootIds l := mem_rootIds.mpr hroot
    have hone : List.count j (preorder (build_comment_tree l).2 l.length r) = 1 :=
      (preorder_count hnodup hrk l.length r
        ((rootIds_sublist l).subset hrmem) j).1 ⟨d, hd, hanc⟩
    have hzero : ∀ r₂ ∈ rootIds l, r₂ ≠ r →
        List.count j (preorder (build_comment_tree l).2 l.length r₂) = 0 := by
      intro r₂ hr₂ hne
      refine (preorder_count hnodup hrk l.length r₂
        ((rootIds_sublist l).subset hr₂) j).2 ?_
      intro e he hae
      exact hne (root_ancestor_unique hnodup (mem_rootIds.mp hr₂) hroot hae hanc)
    have hnd : (rootIds l).Nodup := List.Nodup.sublist (rootIds_sublist l) hnodup
    calc List.count j (forestPreorder l) = 1 := by
          simp only [forestPreorder, build_comment_tree_fst]
          exact count_flatMap_eq_one hnd hrmem hone hzero
      _ = List.count j (entryIds l) := (List.count_eq_one_of_mem hnodup hj).symm
  · have h₁ : List.count j (forestPreorder l) = 0 := by
      simp only [forestPreorder, build_comment_tree_fst]
      apply count_flatMap_eq_zero
      intro r hr
      refine (preorder_count hnodup hrk l.length r
        ((rootIds_sublist l).subset hr) j).2 ?_
      intro e he hae
      cases e with
      | zero =>
        exact hj ((show r = j from hae) ▸ (rootIds_sublist l).subset hr)
      | succ e =>
        obtain ⟨p, hchild, -⟩ := hae
        exact hj (isChildOf_mem hchild)
    rw [h₁, List.count_eq_zero_of_not_mem hj]

theorem mem_preorder {replies : Nat → List Nat} :
    ∀ {fuel i x : Nat}, x ∈ preorder replies fuel i →
      x = i ∨ ∃ q, x ∈ replies q := by
  intro fuel
  induction fuel with
  | zero => intro i x h; simp [preorder] at h
  | succ fuel ih =>
    intro i x h
    rw [preorder] at h
    rcases List.mem_cons.mp h with rfl | h
    · exact Or.inl rfl
    · obtain ⟨c, hc, hx⟩ := List.mem_flatMap.mp h
      rcases ih hx with rfl | hq
      · exact Or.inr ⟨i, hc⟩
      · exact Or.inr hq

/-! ## Claim theorems: the comment tree assembler -/

/-- **C3, counterexample.**  The single input comment (id 1) declares parent
id 99, which is absent from the input.  The claim places it as a root of the
output forest; `build_comment_tree` instead produces an empty root list and an
empty forest — the comment is dropped. -/
theorem c3_counterexample :
    (build_comment_tree exOrphan).1 = [] ∧ forestPreorder exOrphan = [] :=
  ⟨rfl, rfl⟩

/-- **C3, amended.**  In `queries.py`, a comment whose declared parent id is
absent from the supplied input is silently omitted by `build_comment_tree`
(the `elif comment.parent_id in nodes` guard): it is neither placed as a root
nor attached to any replies list, so it does not occur in the assembled
forest.  The assembler does not fail on it (the function is total).  The
duplicate-free hypothesis rules out a second comment with the same id. -/
theorem build_comment_tree_drops_orphan {l : List CEntry}
    (hnodup : (entryIds l).Nodup) {c : CEntry} (hc : c ∈ l) {p : Nat}
    (hp : c.parent = some p) (habsent : p ∉ entryIds l) :
    c.id ∉ (build_comment_tree l).1 ∧ c.id ∉ forestPreorder l := by
  have hnotroot : c.id ∉ rootIds l := by
    intro hmem
    obtain ⟨c₂, hc₂, hid₂, hpar₂⟩ := mem_rootIds.mp hmem
    have hcc : c₂ = c := entry_unique hnodup hc₂ hc hid₂
    subst hcc
    rw [hp] at hpar₂
    exact Option.noConfusion hpar₂
  have hnotchild : ∀ q, c.id ∉ childIds l q := by
    intro q hmem
    obtain ⟨⟨c₂, hc₂, hid₂, hpar₂⟩, hq⟩ := mem_childIds.mp hmem
    have hcc : c₂ = c := entry_unique hnodup hc₂ hc hid₂
    subst hcc
    rw [hp] at hpar₂
    have hpq : p = q := Option.some_inj.mp hpar₂
    exact habsent (hpq.symm ▸ hq)
  refine ⟨by rw [build_comment_tree_fst]; exact hnotroot, ?_⟩
  intro hmem
  rw [forestPreorder, build_comment_tree_fst] at hmem
  obtain ⟨r, hr, hx⟩ := List.mem_flatMap.mp hmem
  rcases mem_preorder hx with heq | ⟨q, hq⟩
  · exact hnotroot (heq.symm ▸ hr)
  · rw [build_comment_tree_snd] at hq
    exact hnotchild q hq

/-- Witness for the amended C3 theorem at the concrete orphan input. -/
theorem build_comment_tree_drops_orphan_witness :
    1 ∉ (build_comment_tree exOrphan).1 ∧ 1 ∉ forestPreorder exOrphan :=
  build_comment_tree_drops_orphan (l := exOrphan) (by decide)
    (c := ⟨1, some 99, 0⟩) (by decide) (p := 99) rfl (by decide)

/-- **C8.**  For every duplicate-free input whose parent references all point
at supplied comments and are acyclic (witnessed by a rank function, which
exists exactly for cycle-free finite parent graphs), the pre-order traversal
of the forest assembled by `build_comment_tree` is a permutation of the input
ids — every input comment is visited exactly once — and its node count equals
the input count; the empty input assembles to the empty forest. -/
theorem build_comment_tree_preorder_complete (l : List CEntry) (rk : Nat → Nat)
    (hnodup : (entryIds l).Nodup) (hpar : parentsPresent l)
    (hrk : rankOk l rk) :
    (forestPreorder l).Perm (entryIds l) ∧
      (forestPreorder l).length = l.length ∧
      forestPreorder ([] : List CEntry) = [] := by
  refine ⟨forestPreorder_perm hnodup hpar hrk, ?_, rfl⟩
  rw [(forestPreorder_perm hnodup hpar hrk).length_eq]
  exact List.length_map l (fun c => c.id)

/-- Witness for C8 at the concrete two-comment thread, with the identity rank
function. -/
theorem build_comment_tree_preorder_complete_witness :
    (forestPreorder exThread).Perm (entryIds exThread) ∧
      (forestPreorder exThread).length = exThread.length ∧
      forestPreorder ([] : List CEntry) = [] :=
  build_comment_tree_preorder_complete exThread (fun i => i)
    (by decide) (by decide) (by decide)

/-! ## Claim theorems: comment creation depth -/

theorem depthOk_create {store : List CEntry} (h : DepthOk store)
    (newId : Nat) (parentId : Option Nat) :
    DepthOk (CommentCreateSerializer_create store newId parentId) := by
  cases parentId with
  | none =>
    intro c hc
    simp only [CommentCreateSerializer_create] at hc
    rcases List.mem_append.mp hc with hold | hnew
    · obtain ⟨h0, hsome⟩ := h c hold
      refine ⟨h0, fun p hp => ?_⟩
      obtain ⟨q, hq, hqid, hd⟩ := hsome p hp
      exact ⟨q, List.mem_append_left _ hq, hqid, hd⟩
    · simp only [List.mem_singleton] at hnew
      subst hnew
      exact ⟨fun _ => rfl, fun p hp => Option.noConfusion hp⟩
  | some pid =>
    cases hfind : store.find? (fun c => c.id == pid) with
    | none =>
      intro c hc
      simp only [CommentCreateSerializer_create, hfind] at hc ⊢
      exact h c hc
    | some parent =>
      intro c hc
      simp only [CommentCreateSerializer_create, hfind] at hc
      rcases List.mem_append.mp hc with hold | hnew
      · obtain ⟨h0, hsome⟩ := h c hold
        refine ⟨h0, fun p hp => ?_⟩
        obtain ⟨q, hq, hqid, hd⟩ := hsome p hp
        refine ⟨q, ?_, hqid, hd⟩
        simp only [CommentCreateSerializer_create, hfind]
        exact List.mem_append_left _ hq
      · simp only [List.mem_singleton] at hnew
        subst hnew
        refine ⟨fun hp => Option.noConfusion hp, fun p hp => ?_⟩
        have hppid : pid = p := Option.some_inj.mp hp
        subst hppid
        refine ⟨parent, ?_, ?_, rfl⟩
        · simp only [CommentCreateSerializer_create, hfind]
          exact List.mem_append_left _ (List.mem_of_find?_eq_some hfind)
        · have := List.find?_some hfind
          simpa using this

/-- **C9.**  Every comment store reachable from the empty store by creations
through `CommentCreateSerializer_create` satisfies the depth invariant: a
comment with a null parent has depth 0, and a comment whose parent is present
has its parent's depth plus one.  The tree assembler copies entries verbatim,
so the same holds of every node of the assembled forest. -/
theorem createAll_depthOk (ops : List (Nat × Option Nat)) :
    DepthOk (createAll ops) := by
  suffices h : ∀ s : List CEntry, DepthOk s →
      DepthOk (ops.foldl (fun s op => CommentCreateSerializer_create s op.1 op.2) s) from
    h [] (fun c hc => absurd hc (List.not_mem_nil c))
  induction ops with
  | nil => intro s hs; exact hs
  | cons op rest ih =>
    intro s hs
    exact ih (CommentCreateSerializer_create s op.1 op.2) (depthOk_create hs op.1 op.2)

/-! ## The like coordinator: helper lemmas -/

theorem like_post_duplicate_frame {f : Faults} {u pid : Nat} {now : Int}
    {db : DB} {post : PostRow} (hfind : findPost db pid = some post)
    (hdup : likeExists db u pid = true) :
    like_post f u pid now db = (Except.ok ⟨false, "already_exists", 0⟩, db) := by
  simp [like_post, likePostTx, hfind, hdup]

theorem like_post_success_state (f : Faults) (now : Int) {u pid : Nat}
    {db : DB} {post : PostRow} (hfind : findPost db pid = some post)
    (hnew : likeExists db u pid = false) (hk : f.failKarma = false)
    (hc : f.failCount = false) :
    like_post f u pid now db =
      (Except.ok ⟨true, "created",
          if post.author = u then 0 else KARMA_POST_LIKE⟩,
        bumpLikeCount pid
          { db with
            likes := db.likes ++ [⟨u, TargetKind.post, pid⟩],
            karma := db.karma ++
              (if post.author = u then []
               else [⟨post.author, u, KARMA_POST_LIKE, now⟩]) }) := by
  by_cases hauthor : post.author = u
  · simp [like_post, likePostTx, hfind, hnew, hauthor, hc]
  · simp [like_post, likePostTx, hfind, hnew, hauthor, hk, hc]

theorem likePostTx_ok_inv {f : Faults} {u pid : Nat} {now : Int} {db : DB}
    {post : PostRow} (hfind : findPost db pid = some post)
    {db2 : DB} {delta : Int}
    (h : likePostTx f u pid now db = Except.ok (db2, delta)) :
    db2 = bumpLikeCount pid
        { db with
          likes := db.likes ++ [⟨u, TargetKind.post, pid⟩],
          karma := db.karma ++
            (if post.author = u then []
             else [⟨post.author, u, KARMA_POST_LIKE, now⟩]) } ∧
      delta = (if post.author = u then 0 else KARMA_POST_LIKE) := by
  by_cases hdup : likeExists db u pid
  · simp [likePostTx, hfind, hdup] at h
  · by_cases hauthor : post.author = u
    · cases hc : f.failCount with
      | false =>
        simp [likePostTx, hfind, hdup, hauthor, hc] at h
        simp only [if_pos hauthor, List.append_nil]
        exact ⟨h.1.symm, h.2.symm⟩
      | true => simp [likePostTx, hfind, hdup, hauthor, hc] at h
    · cases hk : f.failKarma with
      | false =>
        cases hc : f.failCount with
        | false =>
          simp [likePostTx, hfind, hdup, hauthor, hk, hc] at h
          simp only [if_neg hauthor]
          exact ⟨h.1.symm, h.2.symm⟩
        | true => simp [likePostTx, hfind, hdup, hauthor, hk, hc] at h
      | true => simp [likePostTx, hfind, hdup, hauthor, hk] at h

theorem like_post_frame (f : Faults) (u pid : Nat) (now : Int) (db : DB) :
    (∀ e, (like_post f u pid now db).1 = Except.error e →
        (like_post f u pid now db).2 = db) ∧
    (∀ r, (like_post f u pid now db).1 = Except.ok r → r.success = false →
        (like_post f u pid now db).2 = db) := by
  unfold like_post
  cases htx : likePostTx f u pid now db with
  | ok v =>
    cases v with
    | mk db2 delta =>
      constructor
      · intro e he
        simp at he
      · intro r hr hs
        simp only [Except.ok.injEq] at hr
        rw [← hr] at hs
        simp at hs
  | error e2 =>
    cases e2 with
    | integrity =>
      exact ⟨fun e he => by simp at he, fun r hr hs => rfl⟩
    | notFound =>
      exact ⟨fun e he => rfl, fun r hr hs => by simp at hr⟩
    | transient =>
      exact ⟨fun e he => rfl, fun r hr hs => by simp at hr⟩

theorem findPost_map_bump (pid : Nat) :
    ∀ (ps : List PostRow) (post : PostRow),
      ps.find? (fun p => p.id == pid) = some post →
      (ps.map (fun p =>
          if p.id = pid then { p with like_count := p.like_count + 1 } else p)).find?
          (fun p => p.id == pid) =
        some { post with like_count := post.like_count + 1 } := by
  intro ps
  induction ps with
  | nil => intro post h; simp at h
  | cons q rest ih =>
    intro post h
    by_cases hq : q.id = pid
    · rw [List.find?_cons_of_pos _ (by simp [hq])] at h
      have hpq : q = post := Option.some_inj.mp h
      subst hpq
      simp only [List.map_cons, if_pos hq]
      rw [List.find?_cons_of_pos _ (by simp [hq])]
    · rw [List.find?_cons_of_neg _ (by simp [hq])] at h
      simp only [List.map_cons, if_neg hq]
      rw [List.find?_cons_of_neg _ (by simp [hq])]
      exact ih post h

theorem findPost_bumpLikeCount {db : DB} {pid : Nat} {post : PostRow}
    (hfind : findPost db pid = some post) :
    findPost (bumpLikeCount pid db) pid =
      some { post with like_count := post.like_count + 1 } :=
  findPost_map_bump pid db.posts post hfind

theorem likeExists_of_mem {db : DB} {u pid : Nat}
    (h : (⟨u, TargetKind.post, pid⟩ : LikeRow) ∈ db.likes) :
    likeExists db u pid = true :=
  List.any_eq_true.mpr ⟨⟨u, TargetKind.post, pid⟩, h, by simp⟩

theorem likeN_stable (u pid : Nat) (now : Int) (db2 : DB) (post2 : PostRow)
    (hfind2 : findPost db2 pid = some post2)
    (hdup : likeExists db2 u pid = true) :
    ∀ k, likeN noFaults u pid now k db2 = db2 := by
  intro k
  induction k with
  | zero => rfl
  | succ k ih =>
    rw [likeN, like_post_duplicate_frame hfind2 hdup]
    exact ih

/-! ## Claim theorems: the like coordinator -/

/-- **C1, counterexample.**  In `dbDup`, user 2 already likes post 1 (whose
`like_count` is 1).  The claim says a further call takes the reverse
transition — deletes the Like row, decrements `like_count`, returns
`action = removed`.  `like_post` instead returns
`action = "already_exists"`, the Like row is still present afterwards, and
`like_count` is still 1. -/
theorem c1_counterexample :
    (like_post noFaults 2 1 0 dbDup).1 =
        Except.ok ⟨false, "already_exists", 0⟩ ∧
      (⟨2, TargetKind.post, 1⟩ : LikeRow) ∈ (like_post noFaults 2 1 0 dbDup).2.likes ∧
      findPost (like_post noFaults 2 1 0 dbDup).2 1 = some ⟨1, 10, 1⟩ := by
  refine ⟨rfl, ?_, rfl⟩
  decide

/-- **C1, amended.**  For every (actor, post) pair for which a Like row
already exists, `like_post` performs no reverse transition: the
unique-constraint violation is caught and the call returns
`action = "already_exists"` with `karma_delta = 0`, leaving the entire state
(Like rows, counters, karma log) exactly as it was. -/
theorem like_post_existing_already_exists (f : Faults) (u pid : Nat)
    (now : Int) (db : DB) (post : PostRow)
    (hfind : findPost db pid = some post)
    (hdup : likeExists db u pid = true) :
    like_post f u pid now db = (Except.ok ⟨false, "already_exists", 0⟩, db) :=
  like_post_duplicate_frame hfind hdup

/-- Witness for the amended C1 theorem at the concrete duplicated like. -/
theorem like_post_existing_already_exists_witness :
    like_post noFaults 2 1 0 dbDup =
      (Except.ok ⟨false, "already_exists", 0⟩, dbDup) :=
  like_post_existing_already_exists noFaults 2 1 0 dbDup ⟨1, 10, 1⟩ rfl rfl

/-- **C2.**  The Like insert, the `like_count` increment and the KarmaEvent
append (owed only when the post author differs from the actor) execute inside
one `transaction.atomic()` block of `like_post`: when the call reports a
successful creation the final state carries all of them together, and on
every failure — `IntegrityError`, a missing post, or a transient failure
injected at either write following the insert — the observable state equals
the state before the call. -/
theorem like_post_atomic (f : Faults) (u pid : Nat) (now : Int) (db : DB)
    (post : PostRow) (hfind : findPost db pid = some post) :
    (∀ e, (like_post f u pid now db).1 = Except.error e →
        (like_post f u pid now db).2 = db) ∧
    (∀ r, (like_post f u pid now db).1 = Except.ok r → r.success = false →
        (like_post f u pid now db).2 = db) ∧
    (∀ r, (like_post f u pid now db).1 = Except.ok r → r.success = true →
        (like_post f u pid now db).2 =
          bumpLikeCount pid
            { db with
              likes := db.likes ++ [⟨u, TargetKind.post, pid⟩],
              karma := db.karma ++
                (if post.author = u then []
                 else [⟨post.author, u, KARMA_POST_LIKE, now⟩]) }) := by
  refine ⟨(like_post_frame f u pid now db).1, (like_post_frame f u pid now db).2, ?_⟩
  intro r hr hs
  unfold like_post at hr ⊢
  cases htx : likePostTx f u pid now db with
  | ok v =>
    cases v with
    | mk db2 delta =>
      simp only [htx]
      exact (likePostTx_ok_inv hfind htx).1
  | error e2 =>
    simp only [htx] at hr
    cases e2 with
    | integrity =>
      simp only [Except.ok.injEq] at hr
      rw [← hr] at hs
      simp at hs
    | notFound => simp at hr
    | transient => simp at hr

/-- Witness for C2: with a transient fault injected at the karma write, the
call fails and the state is unchanged. -/
theorem like_post_atomic_witness :
    (like_post ⟨true, false⟩ 2 1 0 dbFresh).2 = dbFresh :=
  (like_post_atomic ⟨true, false⟩ 2 1 0 dbFresh ⟨1, 10, 0⟩ rfl).1
    TxError.transient rfl

/-- **C4.**  An actor liking their own post: the Like row is still created and
`like_count` still goes up by one, but zero KarmaEvent rows are appended
(`post.author_id != user.id` guards the karma write). -/
theorem like_post_self_like (f : Faults) (u pid : Nat) (now : Int) (db : DB)
    (post : PostRow) (hfind : findPost db pid = some post)
    (hauthor : post.author = u) (hnew : likeExists db u pid = false)
    (hc : f.failCount = false) :
    (like_post f u pid now db).1 = Except.ok ⟨true, "created", 0⟩ ∧
      (like_post f u pid now db).2.likes =
        db.likes ++ [⟨u, TargetKind.post, pid⟩] ∧
      (like_post f u pid now db).2.karma = db.karma ∧
      findPost (like_post f u pid now db).2 pid =
        some { post with like_count := post.like_count + 1 } := by
  have heq : like_post f u pid now db =
      (Except.ok ⟨true, "created", 0⟩,
        bumpLikeCount pid
          { db with likes := db.likes ++ [⟨u, TargetKind.post, pid⟩] }) := by
    simp [like_post, likePostTx, hfind, hnew, hauthor, hc]
  rw [heq]
  exact ⟨rfl, rfl, rfl, findPost_bumpLikeCount hfind⟩

/-- Witness for C4: the author (user 10) likes their own post. -/
theorem like_post_self_like_witness :
    (like_post noFaults 10 1 0 dbFresh).1 = Except.ok ⟨true, "created", 0⟩ ∧
      (like_post noFaults 10 1 0 dbFresh).2.likes =
        dbFresh.likes ++ [⟨10, TargetKind.post, 1⟩] ∧
      (like_post noFaults 10 1 0 dbFresh).2.karma = dbFresh.karma ∧
      findPost (like_post noFaults 10 1 0 dbFresh).2 1 = some ⟨1, 10, 1⟩ :=
  like_post_self_like noFaults 10 1 0 dbFresh ⟨1, 10, 0⟩ rfl rfl rfl rfl

/-- **C7, counterexample.**  Two fault-free calls from the not-liked state
(`dbFresh`, `like_count = 0`).  The claim (at n = 1) says the pair returns to
not-liked with `like_count` back at 0; instead the Like row is present and
`like_count` is 1 — the second call changed nothing. -/
theorem c7_counterexample :
    (likeN noFaults 2 1 0 2 dbFresh).likes = [⟨2, TargetKind.post, 1⟩] ∧
      findPost (likeN noFaults 2 1 0 2 dbFresh) 1 = some ⟨1, 10, 1⟩ :=
  ⟨rfl, rfl⟩

/-- **C7, amended.**  `like_post` has no unlike branch, so from the not-liked
state every number n ≥ 1 of fault-free calls — even or odd — produces exactly
the state of the single successful call: the Like row present, the target's
`like_count` one greater than its starting value, and the pair still liked. -/
theorem likeN_idempotent_after_first (u pid : Nat) (now : Int) (db : DB)
    (post : PostRow) (hfind : findPost db pid = some post)
    (hnew : likeExists db u pid = false) :
    ∀ n, 1 ≤ n →
      likeN noFaults u pid now n db =
          bumpLikeCount pid
            { db with
              likes := db.likes ++ [⟨u, TargetKind.post, pid⟩],
              karma := db.karma ++
                (if post.author = u then []
                 else [⟨post.author, u, KARMA_POST_LIKE, now⟩]) } ∧
        findPost (likeN noFaults u pid now n db) pid =
          some { post with like_count := post.like_count + 1 } ∧
        likeExists (likeN noFaults u pid now n db) u pid = true := by
  intro n hn
  obtain ⟨m, rfl⟩ : ∃ m, n = m + 1 := ⟨n - 1, by omega⟩
  have h1 := like_post_success_state noFaults now hfind hnew rfl rfl
  have hS : (like_post noFaults u pid now db).2 =
      bumpLikeCount pid
        { db with
          likes := db.likes ++ [⟨u, TargetKind.post, pid⟩],
          karma := db.karma ++
            (if post.author = u then []
             else [⟨post.author, u, KARMA_POST_LIKE, now⟩]) } := by
    rw [h1]
  have hfind2 : findPost (like_post noFaults u pid now db).2 pid =
      some { post with like_count := post.like_count + 1 } := by
    rw [hS]
    exact findPost_bumpLikeCount hfind
  have hdup2 : likeExists (like_post noFaults u pid now db).2 u pid = true := by
    rw [hS]
    exact likeExists_of_mem (List.mem_append_right _ (List.mem_singleton_self _))
  have hstep : likeN noFaults u pid now (m + 1) db =
      likeN noFaults u pid now m (like_post noFaults u pid now db).2 := rfl
  have hstable := likeN_stable u pid now (like_post noFaults u pid now db).2
    { post with like_count := post.like_count + 1 } hfind2 hdup2 m
  rw [hstep, hstable]
  exact ⟨hS, hfind2, hdup2⟩

/-- Witness for the amended C7 theorem: three calls from the not-liked state. -/
theorem likeN_idempotent_after_first_witness :
    likeN noFaults 2 1 0 3 dbFresh =
        bumpLikeCount 1
          { dbFresh with
            likes := dbFresh.likes ++ [⟨2, TargetKind.post, 1⟩],
            karma := dbFresh.karma ++
              (if (10 : Nat) = 2 then []
               else [⟨10, 2, KARMA_POST_LIKE, 0⟩]) } ∧
      findPost (likeN noFaults 2 1 0 3 dbFresh) 1 = some ⟨1, 10, 1⟩ ∧
      likeExists (likeN noFaults 2 1 0 3 dbFresh) 2 1 = true :=
  likeN_idempotent_after_first 2 1 0 dbFresh ⟨1, 10, 0⟩ rfl rfl 3 (by decide)

/-- **C10.**  A further like attempt on an already-liked target changes no
piece of state — Like rows, posts (so `like_count`), and the KarmaEvent log
are exactly as before — and the call reports `action = "already_exists"` with
a karma delta of 0 rather than removing the like. -/
theorem like_post_existing_is_noop (f : Faults) (u pid : Nat) (now : Int)
    (db : DB) (post : PostRow) (hfind : findPost db pid = some post)
    (hdup : likeExists db u pid = true) :
    (like_post f u pid now db).2.likes = db.likes ∧
      (like_post f u pid now db).2.posts = db.posts ∧
      (like_post f u pid now db).2.karma = db.karma ∧
      (like_post f u pid now db).1 =
        Except.ok ⟨false, "already_exists", 0⟩ := by
  rw [like_post_duplicate_frame hfind hdup]
  exact ⟨rfl, rfl, rfl, rfl⟩

/-- Witness for C10 at the concrete duplicated like. -/
theorem like_post_existing_is_noop_witness :
    (like_post noFaults 2 1 0 dbDup).2.likes = dbDup.likes ∧
      (like_post noFaults 2 1 0 dbDup).2.posts = dbDup.posts ∧
      (like_post noFaults 2 1 0 dbDup).2.karma = dbDup.karma ∧
      (like_post noFaults 2 1 0 dbDup).1 =
        Except.ok ⟨false, "already_exists", 0⟩ :=
  like_post_existing_is_noop noFaults 2 1 0 dbDup ⟨1, 10, 1⟩ rfl rfl

/-! ## The leaderboard: sorting lemmas -/

theorem insertByTotal_perm (a : Nat × Int) (l : List (Nat × Int)) :
    (insertByTotal a l).Perm (a :: l) := by
  induction l with
  | nil => exact List.Perm.refl _
  | cons b rest ih =>
    rw [insertByTotal]
    by_cases h : a.2 < b.2
    · rw [if_pos h]
      exact (ih.cons b).trans (List.Perm.swap a b rest)
    · rw [if_neg h]

theorem sortByTotalDesc_perm (l : List (Nat × Int)) :
    (sortByTotalDesc l).Perm l := by
  induction l with
  | nil => exact List.Perm.refl _
  | cons a rest ih =>
    rw [sortByTotalDesc]
    exact (insertByTotal_perm a _).trans (ih.cons a)

theorem insertByTotal_sorted {a : Nat × Int} {l : List (Nat × Int)}
    (h : List.Pairwise (fun x y : Nat × Int => y.2 ≤ x.2) l) :
    List.Pairwise (fun x y : Nat × Int => y.2 ≤ x.2) (insertByTotal a l) := by
  induction l with
  | nil => simp [insertByTotal]
  | cons b rest ih =>
    rw [insertByTotal]
    obtain ⟨hb, hrest⟩ := List.pairwise_cons.mp h
    by_cases hab : a.2 < b.2
    · rw [if_pos hab]
      refine List.pairwise_cons.mpr ⟨?_, ih hrest⟩
      intro x hx
      rcases List.mem_cons.mp ((insertByTotal_perm a rest).mem_iff.mp hx) with
        rfl | hxr
      · exact le_of_lt hab
      · exact hb x hxr
    · rw [if_neg hab]
      refine List.pairwise_cons.mpr ⟨?_, h⟩
      intro x hx
      rcases List.mem_cons.mp hx with rfl | hxr
      · exact le_of_not_lt hab
      · exact le_trans (hb x hxr) (le_of_not_lt hab)

theorem sortByTotalDesc_sorted (l : List (Nat × Int)) :
    List.Pairwise (fun x y : Nat × Int => y.2 ≤ x.2) (sortByTotalDesc l) := by
  induction l with
  | nil => simp [sortByTotalDesc]
  | cons a rest ih =>
    rw [sortByTotalDesc]
    exact insertByTotal_sorted ih

theorem totalFor_window_eq_spec {evs : List KarmaEventRow} {now hours : Int}
    (hts : ∀ e ∈ evs, e.created_at ≤ now) (u : Nat) :
    totalFor (evs.filter (fun e => decide (now - hours ≤ e.created_at))) u =
      windowSumSpec evs now hours u := by
  unfold totalFor windowSumSpec
  rw [List.filter_filter]
  congr 1
  congr 1
  apply List.filter_congr
  intro e he
  have h := hts e he
  simp [h]

/-! ## Claim theorems: the leaderboard -/

/-- **C5.**  Under the system invariant that event timestamps are
server-assigned and never in the future (`created_at <= now` holds of every
reachable event log), every total reported by `get_leaderboard` is exactly
the sum of the karma deltas of that recipient's events with timestamp inside
`[now - hours, now]`; the code checks only the lower bound
(`created_at >= cutoff`), which coincides with the two-sided window on such
logs.  In the spec's scenario — three +5 events to one recipient at now,
now - 23h, now - 25h — the 24-hour leaderboard reports 10 and the 48-hour
leaderboard reports 15. -/
theorem get_leaderboard_window_sums (evs : List KarmaEventRow)
    (now hours : Int) (limit : Nat)
    (hts : ∀ e ∈ evs, e.created_at ≤ now) :
    (∀ p ∈ get_leaderboard evs now hours limit,
        p.2 = windowSumSpec evs now hours p.1) ∧
      get_leaderboard scenarioEvents 0 24 5 = [(7, 10)] ∧
      get_leaderboard scenarioEvents 0 48 5 = [(7, 15)] := by
  refine ⟨?_, by decide, by decide⟩
  intro p hp
  simp only [get_leaderboard] at hp
  have hp₂ : p ∈ sortByTotalDesc
      ((groupRecipients (evs.filter (fun e => decide (now - hours ≤ e.created_at)))).map
        (fun u => (u, totalFor (evs.filter (fun e => decide (now - hours ≤ e.created_at))) u))) :=
    (List.take_sublist _ _).subset hp
  have hp₃ := (sortByTotalDesc_perm _).mem_iff.mp hp₂
  obtain ⟨u, hu, hpu⟩ := List.mem_map.mp hp₃
  rw [← hpu]
  exact totalFor_window_eq_spec hts u

/-- Witness for C5 at the spec's three-event scenario. -/
theorem get_leaderboard_window_sums_witness :
    (∀ e ∈ scenarioEvents, e.created_at ≤ 0) ∧
      ∀ p ∈ get_leaderboard scenarioEvents 0 24 5,
        p.2 = windowSumSpec scenarioEvents 0 24 p.1 :=
  ⟨by decide, (get_leaderboard_window_sums scenarioEvents 0 24 5 (by decide)).1⟩

/-- **C6, counterexample.**  Recipients 7 and 2 both total 5 in the window,
with recipient 7 first in the event log.  The claim's deterministic order
(descending total, lower recipient id first among ties) requires
`[(2, 5), (7, 5)]`; `get_leaderboard` has no recipient tie-break
(`order_by('-total_karma')` only) and returns recipient 7 first. -/
theorem c6_counterexample :
    get_leaderboard exTie 0 24 5 = [(7, 5), (2, 5)] ∧
      get_leaderboard exTie 0 24 5 ≠ [(2, 5), (7, 5)] ∧
      ¬ List.Pairwise
          (fun a b : Nat × Int => a.2 > b.2 ∨ (a.2 = b.2 ∧ a.1 < b.1))
          (get_leaderboard exTie 0 24 5) := by
  refine ⟨rfl, by decide, by decide⟩

/-- **C6, amended.**  The list returned by `get_leaderboard` is sorted
descending by total karma; the code applies no recipient-id tie-break, so
the order among recipients with equal totals is the database's group order,
not the claimed lower-id-first order (refuted by the counterexample). -/
theorem get_leaderboard_sorted_desc (evs : List KarmaEventRow)
    (now hours : Int) (limit : Nat) :
    List.Pairwise (fun a b : Nat × Int => b.2 ≤ a.2)
      (get_leaderboard evs now hours limit) := by
  simp only [get_leaderboard]
  exact List.Pairwise.sublist (List.take_sublist _ _) (sortByTotalDesc_sorted _)

end KarmaFeed
